/-
Verification of the NSE price-consolidation and adjustment pipeline.

This file shallowly embeds the core of the repository in Lean 4:

* the per-symbol corporate-action adjustment loop of
  `DataPreProcessor.calculate_adjusted_prices` (identical in
  `AdjDataProcessor.calculate_adjusted_prices`): reference-day lookup,
  multiplier computation, and the retroactive cumulative-factor update;
* the source-merge step of `DataRetriever.create_finalDB`: the two
  `INSERT OR IGNORE` statements into `bhav_complete_data`, keyed on
  (SYMBOL, SERIES, DATE1), new_bhav first and then the eod_cash rows whose
  key does not occur in new_bhav;
* the persistence of adjusted rows into `bhav_adjusted_prices` via
  `INSERT OR IGNORE` on the same key.

Prices are modelled in exact rational arithmetic and dates as integers
(day numbers); DuckDB tables are lists of records whose primary key makes
key-uniqueness an invariant of every `INSERT OR IGNORE`.
-/
import Mathlib

namespace NSEPipeline

/-- The natural key (SYMBOL, SERIES, DATE1) used as PRIMARY KEY of the
`bhav_complete_data` and `bhav_adjusted_prices` tables in
`DataRetriever.create_finalDB` and `DataPreProcessor.calculate_adjusted_prices`. -/
structure Key where
  symbol : String
  series : String
  date : ℤ
deriving DecidableEq

/-- One row of a price table (`new_bhav` / `eod_cash` / `bhav_complete_data`),
after the columns of `DataRetriever.create_finalDB`.  `data_source` embeds the
DATA_SOURCE column that the merge fills in. -/
structure PriceRec where
  symbol : String
  series : String
  date1 : ℤ
  prev_close : ℚ
  open_price : ℚ
  high_price : ℚ
  low_price : ℚ
  last_price : ℚ
  close_price : ℚ
  avg_price : ℚ
  ttl_trd_qnty : ℤ
  turnover_lacs : ℚ
  no_of_trades : ℤ
  deliv_qty : ℤ
  deliv_per : ℚ
  data_source : String
deriving DecidableEq

/-- The primary-key triple of a price row. -/
def PriceRec.key (r : PriceRec) : Key :=
  ⟨r.symbol, r.series, r.date1⟩

/-- One parsed corporate action, after the columns of the
`corporate_actions` table built by `preprocess_ca`. -/
structure CorporateAction where
  symbol : String
  ex_date : ℤ
  action_type : String
  dividend_amount : ℚ
  bonus_ratio_from : ℚ
  bonus_ratio_to : ℚ
  split_ratio_from : ℚ
  split_ratio_to : ℚ
deriving DecidableEq

/-- One day of a single symbol's price series inside the adjustment loop:
the DATE1 index, the immutable CLOSE_PRICE column, and the mutable
CUMULATIVE_FACTOR column (initialised to 1.0). -/
structure Row where
  date : ℤ
  close : ℚ
  factor : ℚ
deriving DecidableEq

/-! ## Adjustment engine (`calculate_adjusted_prices`, per-symbol loop) -/

/-- The reference day `prev_trade_date`: the latest trading day strictly before `exd`
(`group[group.index < ex_date].index.max()`); `none` when no such day exists. -/
def refDay (rows : List Row) (exd : ℤ) : Option ℤ :=
  ((rows.filter (fun r => decide (r.date < exd))).map Row.date).max?

/-- The lookup `group.loc[d, 'CLOSE_PRICE']`: the close price recorded on day `d`
(the canonical series holds one row per day). -/
def closeAt (rows : List Row) (d : ℤ) : ℚ :=
  match rows.find? (fun r => decide (r.date = d)) with
  | some r => r.close
  | none => 0

/-- The multiplier computed for one action from the reference-day close,
exactly as in the `if action_type == ...` chain of
`calculate_adjusted_prices` (`multiplier = 1.0` unless a branch assigns). -/
def multiplier (a : CorporateAction) (refClose : ℚ) : ℚ :=
  if a.action_type = "dividend" then
    if refClose > 0 ∧ a.dividend_amount > 0 then
      (refClose - a.dividend_amount) / refClose
    else 1
  else if a.action_type = "split" then
    if a.split_ratio_from > 0 then a.split_ratio_to / a.split_ratio_from else 1
  else if a.action_type = "bonus" then
    if a.bonus_ratio_from + a.bonus_ratio_to > 0 then
      a.bonus_ratio_to / (a.bonus_ratio_from + a.bonus_ratio_to)
    else 1
  else 1

/-- One iteration of the action loop: locate the reference day (skip the
action when there is none), compute the multiplier, and when
`multiplier > 0 and multiplier != 1.0` scale CUMULATIVE_FACTOR on every
row with `index <= prev_trade_date`. -/
def applyAction (rows : List Row) (a : CorporateAction) : List Row :=
  match refDay rows a.ex_date with
  | none => rows
  | some pd =>
      let m := multiplier a (closeAt rows pd)
      if m > 0 ∧ m ≠ 1 then
        rows.map (fun r => if r.date ≤ pd then { r with factor := r.factor * m } else r)
      else rows

/-- The full action loop over a symbol's action sequence, in sequence order. -/
def applyActions (rows : List Row) (as : List CorporateAction) : List Row :=
  as.foldl applyAction rows

/-- A symbol's series with `CUMULATIVE_FACTOR` initialised to 1.0
(`group['CUMULATIVE_FACTOR'] = 1.0`). -/
def initRows (prices : List (ℤ × ℚ)) : List Row :=
  prices.map (fun p => ⟨p.1, p.2, 1⟩)

/-- The whole per-symbol adjustment: initialise factors, run the action loop. -/
def adjustSeries (prices : List (ℤ × ℚ)) (as : List CorporateAction) : List Row :=
  applyActions (initRows prices) as

/-- The derived column `ADJ_CLOSE_PRICE = CLOSE_PRICE * CUMULATIVE_FACTOR`. -/
def adjustedClose (r : Row) : ℚ :=
  r.close * r.factor

/-! ## Action-sequence preparation

The loop above consumes whatever sequence the fetch step hands it.
`DataPreProcessor.calculate_adjusted_prices` fetches the actions with
`SELECT ... FROM corporate_actions ... ORDER BY symbol, ex_date`, so per
symbol the loop sees some ex_date-sorted rearrangement of the table.
`AdjDataProcessor.calculate_adjusted_prices` with `CREATE_TABLES = False`
instead uses `ca_df = df.copy()`: the parsed CSV rows unchanged.  Neither
variant sorts inside the loop itself. -/

/-- The ex-date order used by the `ORDER BY ex_date` clause. -/
def exDateLE (a b : CorporateAction) : Prop :=
  a.ex_date ≤ b.ex_date

instance : DecidableRel exDateLE :=
  fun a b => inferInstanceAs (Decidable (a.ex_date ≤ b.ex_date))

instance : IsTotal CorporateAction exDateLE :=
  ⟨fun a b => le_total a.ex_date b.ex_date⟩

instance : IsTrans CorporateAction exDateLE :=
  ⟨fun _ _ _ h₁ h₂ => le_trans h₁ h₂⟩

/-- The action sequence seen by the loop in `DataPreProcessor`: the
`corporate_actions` rows for the symbol, sorted by `ex_date` by the SQL
`ORDER BY` of the fetch query (modelled by insertion sort, which returns
an `ex_date`-sorted rearrangement as the query does). -/
def caSequencePre (tbl : List CorporateAction) : List CorporateAction :=
  tbl.insertionSort exDateLE

/-- The action sequence seen by the loop in `AdjDataProcessor` with
`CREATE_TABLES = False`: `ca_df = df.copy()` — the parsed rows in input
order, with no sort anywhere. -/
def caSequenceAdj (df : List CorporateAction) : List CorporateAction :=
  df

/-! ## Source merge (`DataRetriever.create_finalDB`) -/

/-- Key membership test in a table, the collision check of the PRIMARY KEY
on (SYMBOL, SERIES, DATE1). -/
def hasKey {α : Type} (key : α → Key) (t : List α) (k : Key) : Bool :=
  t.any (fun r => decide (key r = k))

/-- The statement `INSERT OR IGNORE INTO t SELECT * FROM rows`: rows are inserted in
order, and a row whose primary key already occurs in the table (including
keys added earlier in the same statement) is ignored. -/
def insertOrIgnore {α : Type} (key : α → Key) (t rows : List α) : List α :=
  rows.foldl (fun acc r => if hasKey key acc (key r) then acc else acc ++ [r]) t

/-- The projection `'new_bhav' as DATA_SOURCE` / `'eod_cash' as DATA_SOURCE`: stamping the
source tag onto a selected row. -/
def tagSource (s : String) (r : PriceRec) : PriceRec :=
  { r with data_source := s }

/-- The merge `create_finalDB`: first `INSERT OR IGNORE` every `new_bhav` row tagged
'new_bhav'; then, when `from_date <= '2024-07-04'` (`includeEod`),
`INSERT OR IGNORE` the `eod_cash` rows tagged 'eod_cash' whose key does
not occur in `new_bhav` (the `WHERE NOT EXISTS` subquery). -/
def create_finalDB (includeEod : Bool) (t newB eodB : List PriceRec) : List PriceRec :=
  let t1 := insertOrIgnore PriceRec.key t (newB.map (tagSource "new_bhav"))
  if includeEod then
    insertOrIgnore PriceRec.key t1
      ((eodB.filter (fun e => ! hasKey PriceRec.key newB e.key)).map (tagSource "eod_cash"))
  else t1

/-- The same two inserts presented in the opposite order: the filtered
`eod_cash` rows first, then the `new_bhav` rows.  The `WHERE NOT EXISTS`
filter still references the `new_bhav` table. -/
def create_finalDB_eodFirst (t newB eodB : List PriceRec) : List PriceRec :=
  let t1 := insertOrIgnore PriceRec.key t
    ((eodB.filter (fun e => ! hasKey PriceRec.key newB e.key)).map (tagSource "eod_cash"))
  insertOrIgnore PriceRec.key t1 (newB.map (tagSource "new_bhav"))

/-- Point lookup of the row holding key `k` (the first such row). -/
def findRow {α : Type} (key : α → Key) (t : List α) (k : Key) : Option α :=
  t.find? (fun r => decide (key r = k))

/-- The PRIMARY KEY invariant: no two rows of the table share a key. -/
def keyUnique {α : Type} (key : α → Key) (t : List α) : Prop :=
  (t.map key).Nodup

/-! ## Persisted adjusted output (`bhav_adjusted_prices`) -/

/-- One persisted row of `bhav_adjusted_prices` (key columns plus the two
price columns the claims speak about). -/
structure AdjRec where
  symbol : String
  series : String
  date1 : ℤ
  close_price : ℚ
  adj_close_price : ℚ
deriving DecidableEq

/-- The primary-key triple of an adjusted row. -/
def AdjRec.key (r : AdjRec) : Key :=
  ⟨r.symbol, r.series, r.date1⟩

/-- The rows of `final_df` for one symbol and series:
`ADJ_CLOSE_PRICE = CLOSE_PRICE * CUMULATIVE_FACTOR`. -/
def mkAdjRecs (sym ser : String) (rows : List Row) : List AdjRec :=
  rows.map (fun r => ⟨sym, ser, r.date, r.close, r.close * r.factor⟩)

/-- One pipeline run for a symbol and series: compute the adjusted series
from the canonical prices and actions, then
`INSERT OR IGNORE INTO bhav_adjusted_prices` its rows. -/
def runPipeline (tbl : List AdjRec) (sym ser : String)
    (prices : List (ℤ × ℚ)) (actions : List CorporateAction) : List AdjRec :=
  insertOrIgnore AdjRec.key tbl (mkAdjRecs sym ser (adjustSeries prices actions))

/-! ## Lemmas about keyed tables and `INSERT OR IGNORE` -/

theorem hasKey_eq_false_iff {α : Type} {key : α → Key} {t : List α} {k : Key} :
    hasKey key t k = false ↔ ∀ x ∈ t, key x ≠ k := by
  simp [hasKey]

theorem hasKey_append {α : Type} {key : α → Key} {t₁ t₂ : List α} {k : Key} :
    hasKey key (t₁ ++ t₂) k = (hasKey key t₁ k || hasKey key t₂ k) := by
  simp [hasKey, List.any_append]

theorem insertOrIgnore_nil {α : Type} (key : α → Key) (t : List α) :
    insertOrIgnore key t [] = t :=
  rfl

theorem insertOrIgnore_cons {α : Type} (key : α → Key) (t : List α) (r : α) (rs : List α) :
    insertOrIgnore key t (r :: rs)
      = insertOrIgnore key (if hasKey key t (key r) then t else t ++ [r]) rs :=
  rfl

theorem insertOrIgnore_ext {α : Type} (key : α → Key) (rows : List α) :
    ∀ t, ∃ ext, insertOrIgnore key t rows = t ++ ext ∧ ∀ x ∈ ext, x ∈ rows := by
  induction rows with
  | nil => exact fun t => ⟨[], by simp [insertOrIgnore_nil]⟩
  | cons r rs ih =>
    intro t
    rw [insertOrIgnore_cons]
    by_cases h : hasKey key t (key r) = true
    · obtain ⟨ext, he, hm⟩ := ih t
      rw [if_pos h]
      exact ⟨ext, he, fun x hx => List.mem_cons_of_mem _ (hm x hx)⟩
    · obtain ⟨ext, he, hm⟩ := ih (t ++ [r])
      rw [if_neg h]
      refine ⟨r :: ext, ?_, ?_⟩
      · rw [he, List.append_assoc]; rfl
      · intro x hx
        rcases List.mem_cons.mp hx with rfl | hx'
        · exact List.mem_cons_self _ _
        · exact List.mem_cons_of_mem _ (hm x hx')

theorem insertOrIgnore_keyUnique {α : Type} (key : α → Key) (rows : List α) :
    ∀ t, keyUnique key t → keyUnique key (insertOrIgnore key t rows) := by
  induction rows with
  | nil => intro t h; simpa [insertOrIgnore_nil] using h
  | cons r rs ih =>
    intro t h
    rw [insertOrIgnore_cons]
    by_cases hk : hasKey key t (key r) = true
    · rw [if_pos hk]; exact ih t h
    · rw [if_neg hk]
      refine ih (t ++ [r]) ?_
      have hfk : ∀ x ∈ t, key x ≠ key r :=
        hasKey_eq_false_iff.mp (Bool.eq_false_iff.mpr hk)
      unfold keyUnique at h ⊢
      rw [List.map_append, List.nodup_append]
      refine ⟨h, by simp, ?_⟩
      intro x hx hx'
      simp only [List.map_cons, List.map_nil, List.mem_singleton] at hx'
      obtain ⟨y, hy, rfl⟩ := List.mem_map.mp hx
      exact hfk y hy hx'

theorem hasKey_insertOrIgnore_of_hasKey {α : Type} (key : α → Key) (rows : List α)
    {t : List α} {k : Key} (h : hasKey key t k = true) :
    hasKey key (insertOrIgnore key t rows) k = true := by
  obtain ⟨ext, he, -⟩ := insertOrIgnore_ext key rows t
  rw [he, hasKey_append, h, Bool.true_or]

theorem hasKey_insertOrIgnore_self {α : Type} (key : α → Key) (rows : List α) :
    ∀ t, ∀ r ∈ rows, hasKey key (insertOrIgnore key t rows) (key r) = true := by
  induction rows with
  | nil => intro t r hr; cases hr
  | cons a rs ih =>
    intro t r hr
    rw [insertOrIgnore_cons]
    rcases List.mem_cons.mp hr with rfl | hr'
    · by_cases hk : hasKey key t (key r) = true
      · rw [if_pos hk]
        exact hasKey_insertOrIgnore_of_hasKey key rs hk
      · rw [if_neg hk]
        refine hasKey_insertOrIgnore_of_hasKey key rs ?_
        rw [hasKey_append, Bool.or_eq_true]
        right
        simp [hasKey]
    · exact ih _ r hr'

theorem insertOrIgnore_eq_self {α : Type} (key : α → Key) (rows : List α) :
    ∀ t, (∀ r ∈ rows, hasKey key t (key r) = true) → insertOrIgnore key t rows = t := by
  induction rows with
  | nil => intro t _; rfl
  | cons a rs ih =>
    intro t h
    rw [insertOrIgnore_cons, if_pos (h a (List.mem_cons_self a rs))]
    exact ih t (fun r hr => h r (List.mem_cons_of_mem _ hr))

theorem insertOrIgnore_eq_append {α : Type} (key : α → Key) (rows : List α) :
    ∀ t, (rows.map key).Nodup → (∀ r ∈ rows, hasKey key t (key r) = false) →
      insertOrIgnore key t rows = t ++ rows := by
  induction rows with
  | nil => intro t _ _; simp [insertOrIgnore_nil]
  | cons a rs ih =>
    intro t hnd h
    have h1 : ¬ (hasKey key t (key a) = true) := by
      simp [h a (List.mem_cons_self a rs)]
    rw [insertOrIgnore_cons, if_neg h1]
    simp only [List.map_cons, List.nodup_cons] at hnd
    rw [ih (t ++ [a]) hnd.2 ?_, List.append_assoc]
    · rfl
    · intro r hr
      rw [hasKey_append, h r (List.mem_cons_of_mem _ hr), Bool.false_or]
      rw [hasKey_eq_false_iff]
      intro x hx
      rw [List.mem_singleton.mp hx]
      intro hxa
      exact hnd.1 (hxa ▸ List.mem_map_of_mem key hr)

theorem findRow_append_left {α : Type} {key : α → Key} {t₁ t₂ : List α} {k : Key} {r : α}
    (h : findRow key t₁ k = some r) :
    findRow key (t₁ ++ t₂) k = some r := by
  unfold findRow at h ⊢
  rw [List.find?_append, h]
  rfl

theorem findRow_append_none {α : Type} {key : α → Key} {t₁ t₂ : List α} {k : Key}
    (h : findRow key t₁ k = none) :
    findRow key (t₁ ++ t₂) k = findRow key t₂ k := by
  unfold findRow at h ⊢
  rw [List.find?_append, h]
  rfl

theorem findRow_eq_none_iff {α : Type} {key : α → Key} {t : List α} {k : Key} :
    findRow key t k = none ↔ ∀ x ∈ t, key x ≠ k := by
  simp [findRow, List.find?_eq_none]

theorem findRow_self {α : Type} {key : α → Key} :
    ∀ {t : List α}, keyUnique key t → ∀ {r : α}, r ∈ t → findRow key t (key r) = some r := by
  intro t
  induction t with
  | nil => intro _ r hr; cases hr
  | cons a t ih =>
    intro hu r hr
    unfold keyUnique at hu
    simp only [List.map_cons, List.nodup_cons] at hu
    rcases List.mem_cons.mp hr with rfl | hr'
    · simp [findRow, List.find?_cons]
    · have hne : ¬ (key a = key r) := by
        intro heq
        exact hu.1 (heq ▸ List.mem_map_of_mem key hr')
      unfold findRow
      rw [List.find?_cons, decide_eq_false hne]
      exact ih hu.2 hr'

/-! ## Lemmas about the adjustment loop

The loop mutates only CUMULATIVE_FACTOR; DATE1 and CLOSE_PRICE are
immutable, so every action's reference day and multiplier are functions
of the initial series alone, and the factors compound multiplicatively. -/

/-- The immutable part of a series row. -/
def pairs (rows : List Row) : List (ℤ × ℚ) :=
  rows.map (fun r => (r.date, r.close))

/-- The function `refDay` computed from the immutable part alone. -/
def refDayP (ps : List (ℤ × ℚ)) (exd : ℤ) : Option ℤ :=
  ((ps.filter (fun p => decide (p.1 < exd))).map Prod.fst).max?

/-- The function `closeAt` computed from the immutable part alone. -/
def closeAtP (ps : List (ℤ × ℚ)) (d : ℤ) : ℚ :=
  match ps.find? (fun p => decide (p.1 = d)) with
  | some p => p.2
  | none => 0

theorem refDay_eq_pairs (rows : List Row) (exd : ℤ) :
    refDay rows exd = refDayP (pairs rows) exd := by
  unfold refDay refDayP pairs
  rw [List.filter_map, List.map_map]
  rfl

theorem closeAt_eq_pairs (rows : List Row) (d : ℤ) :
    closeAt rows d = closeAtP (pairs rows) d := by
  unfold closeAt closeAtP pairs
  rw [List.find?_map]
  have h : rows.find? ((fun p => decide (p.1 = d)) ∘ fun r => (r.date, r.close))
      = rows.find? (fun r => decide (r.date = d)) := rfl
  rw [h]
  cases rows.find? (fun r => decide (r.date = d)) <;> rfl

/-- The factor this single action contributes to day `d`, as a function of
the immutable series: the multiplier when the action qualifies
(`multiplier > 0 and multiplier != 1.0`) and `d` is on or before the
reference day, else 1. -/
def dayMult (rows : List Row) (a : CorporateAction) (d : ℤ) : ℚ :=
  match refDay rows a.ex_date with
  | none => 1
  | some pd =>
    if (multiplier a (closeAt rows pd) > 0 ∧ multiplier a (closeAt rows pd) ≠ 1)
        ∧ d ≤ pd then
      multiplier a (closeAt rows pd)
    else 1

theorem dayMult_congr {rows₁ rows₂ : List Row} (h : pairs rows₁ = pairs rows₂)
    (a : CorporateAction) (d : ℤ) :
    dayMult rows₁ a d = dayMult rows₂ a d := by
  unfold dayMult
  rw [refDay_eq_pairs rows₁, refDay_eq_pairs rows₂, h]
  cases refDayP (pairs rows₂) a.ex_date with
  | none => rfl
  | some pd =>
    dsimp only
    rw [closeAt_eq_pairs rows₁, closeAt_eq_pairs rows₂, h]

theorem applyAction_eq_map (rows : List Row) (a : CorporateAction) :
    applyAction rows a
      = rows.map (fun r => { r with factor := r.factor * dayMult rows a r.date }) := by
  unfold applyAction dayMult
  cases h : refDay rows a.ex_date with
  | none =>
    simp [mul_one]
  | some pd =>
    dsimp only
    by_cases hm : multiplier a (closeAt rows pd) > 0 ∧ multiplier a (closeAt rows pd) ≠ 1
    · rw [if_pos hm]
      apply List.map_congr_left
      intro r _
      by_cases hd : r.date ≤ pd
      · rw [if_pos hd, if_pos ⟨hm, hd⟩]
      · rw [if_neg hd, if_neg (fun hc => hd hc.2), mul_one]
    · rw [if_neg hm]
      conv_lhs => rw [← List.map_id rows]
      apply List.map_congr_left
      intro r _
      rw [if_neg (fun hc => hm hc.1), mul_one]
      rfl

theorem pairs_applyAction (rows : List Row) (a : CorporateAction) :
    pairs (applyAction rows a) = pairs rows := by
  rw [applyAction_eq_map]
  unfold pairs
  rw [List.map_map]
  rfl

/-- The factor a whole action sequence contributes to day `d`: the product
of the per-action factors, each computed from the immutable series. -/
def totalMult (rows : List Row) (as : List CorporateAction) (d : ℤ) : ℚ :=
  (as.map (fun a => dayMult rows a d)).prod

theorem applyActions_eq_map (as : List CorporateAction) :
    ∀ rows : List Row, applyActions rows as
      = rows.map (fun r => { r with factor := r.factor * totalMult rows as r.date }) := by
  induction as with
  | nil =>
    intro rows
    unfold applyActions totalMult
    simp [mul_one]
  | cons a as ih =>
    intro rows
    have h1 : applyActions rows (a :: as) = applyActions (applyAction rows a) as := rfl
    have hp : pairs (applyAction rows a) = pairs rows := pairs_applyAction rows a
    have ht : ∀ d, totalMult (applyAction rows a) as d = totalMult rows as d := by
      intro d
      unfold totalMult
      congr 1
      exact List.map_congr_left (fun x _ => dayMult_congr hp x d)
    rw [h1, ih (applyAction rows a)]
    rw [List.map_congr_left
      (fun (r : Row) (_ : r ∈ applyAction rows a) => by rw [ht r.date])]
    rw [applyAction_eq_map rows a, List.map_map]
    apply List.map_congr_left
    intro r _
    simp only [Function.comp, totalMult, List.map_cons, List.prod_cons, Row.mk.injEq,
      true_and, and_true]
    rw [mul_assoc]

theorem totalMult_perm (rows : List Row) {as bs : List CorporateAction}
    (h : as.Perm bs) (d : ℤ) :
    totalMult rows as d = totalMult rows bs d :=
  List.Perm.prod_eq (h.map _)

theorem adjustSeries_perm_helper (prices : List (ℤ × ℚ)) {as bs : List CorporateAction}
    (h : as.Perm bs) :
    adjustSeries prices as = adjustSeries prices bs := by
  unfold adjustSeries
  rw [applyActions_eq_map as, applyActions_eq_map bs]
  exact List.map_congr_left (fun r _ => by rw [totalMult_perm _ h])

/-! ### Merge lemmas specific to `create_finalDB` -/

theorem key_tagSource (s : String) (r : PriceRec) : (tagSource s r).key = r.key :=
  rfl

theorem keyUnique_map_tag (s : String) (newB : List PriceRec) :
    keyUnique PriceRec.key (newB.map (tagSource s)) ↔ keyUnique PriceRec.key newB := by
  unfold keyUnique
  rw [List.map_map]
  exact Iff.rfl

theorem findRow_tagged_self {newB : List PriceRec} (hu : keyUnique PriceRec.key newB)
    {r : PriceRec} (hr : r ∈ newB) (s : String) :
    findRow PriceRec.key (newB.map (tagSource s)) r.key = some (tagSource s r) := by
  have h1 : tagSource s r ∈ newB.map (tagSource s) := List.mem_map_of_mem _ hr
  exact findRow_self ((keyUnique_map_tag s newB).mpr hu) h1

theorem eod_filtered_keys {newB eodB : List PriceRec} {x : PriceRec}
    (hx : x ∈ (eodB.filter (fun e => ! hasKey PriceRec.key newB e.key)).map
      (tagSource "eod_cash")) :
    ∀ n ∈ newB, PriceRec.key n ≠ x.key := by
  obtain ⟨e, he, rfl⟩ := List.mem_map.mp hx
  have hf : hasKey PriceRec.key newB e.key = false := by
    simpa using (List.mem_filter.mp he).2
  intro n hn
  exact hasKey_eq_false_iff.mp hf n hn

theorem insertOrIgnore_nil_table {α : Type} (key : α → Key) {rows : List α}
    (h : (rows.map key).Nodup) :
    insertOrIgnore key [] rows = rows := by
  have h0 : ∀ x ∈ rows, hasKey key ([] : List α) (key x) = false := fun x _ => rfl
  simpa using insertOrIgnore_eq_append key rows [] h h0

/-- Sample 'modern' row of the spec scenario: ABC/EQ/2020-01-01, close 101,
traded quantity 1000. -/
def sampleModern : PriceRec :=
  ⟨"ABC", "EQ", 20200101, 0, 0, 0, 0, 0, 101, 0, 1000, 0, 0, 0, 0, ""⟩

/-- Sample 'legacy' row: the same key as `sampleModern` but close 100. -/
def sampleLegacy : PriceRec :=
  ⟨"ABC", "EQ", 20200101, 0, 0, 0, 0, 0, 100, 0, 1000, 0, 0, 0, 0, ""⟩

/-- C3: for every pre-existing table state that satisfies the PRIMARY KEY
invariant and all input batches, the `bhav_complete_data` table produced by
`create_finalDB` contains no two rows with the same (SYMBOL, SERIES, DATE1)
key: both `INSERT OR IGNORE` statements skip any row whose key is present. -/
theorem create_finalDB_key_unique (includeEod : Bool) (t newB eodB : List PriceRec)
    (h : keyUnique PriceRec.key t) :
    keyUnique PriceRec.key (create_finalDB includeEod t newB eodB) := by
  cases includeEod with
  | false => exact insertOrIgnore_keyUnique _ _ _ h
  | true => exact insertOrIgnore_keyUnique _ _ _ (insertOrIgnore_keyUnique _ _ _ h)

theorem create_finalDB_key_unique_witness :
    keyUnique PriceRec.key ([] : List PriceRec)
  ∧ keyUnique PriceRec.key (create_finalDB true [] [sampleModern] [sampleLegacy]) :=
  ⟨List.nodup_nil, create_finalDB_key_unique true [] [sampleModern] [sampleLegacy]
    List.nodup_nil⟩

/-- C4: merging into a fresh table, every key of the higher-precedence
`new_bhav` batch — in particular every key that also occurs in `eod_cash` —
maps in the merged output to the `new_bhav` row (tagged 'new_bhav'), and the
same row results when the two inserts are presented in the opposite order. -/
theorem merge_precedence (newB eodB : List PriceRec) (r : PriceRec)
    (hu : keyUnique PriceRec.key newB) (hr : r ∈ newB)
    (_hover : hasKey PriceRec.key eodB r.key = true) :
    findRow PriceRec.key (create_finalDB true [] newB eodB) r.key
      = some (tagSource "new_bhav" r)
  ∧ findRow PriceRec.key (create_finalDB_eodFirst [] newB eodB) r.key
      = some (tagSource "new_bhav" r) := by
  have hknew : keyUnique PriceRec.key (newB.map (tagSource "new_bhav")) :=
    (keyUnique_map_tag _ _).mpr hu
  constructor
  · have hdb : create_finalDB true [] newB eodB
        = insertOrIgnore PriceRec.key
            (insertOrIgnore PriceRec.key [] (newB.map (tagSource "new_bhav")))
            ((eodB.filter (fun e => ! hasKey PriceRec.key newB e.key)).map
              (tagSource "eod_cash")) := rfl
    rw [hdb, insertOrIgnore_nil_table PriceRec.key hknew]
    obtain ⟨ext, hext, -⟩ := insertOrIgnore_ext PriceRec.key
      ((eodB.filter (fun e => ! hasKey PriceRec.key newB e.key)).map (tagSource "eod_cash"))
      (newB.map (tagSource "new_bhav"))
    rw [hext]
    exact findRow_append_left (findRow_tagged_self hu hr _)
  · have hdb : create_finalDB_eodFirst [] newB eodB
        = insertOrIgnore PriceRec.key
            (insertOrIgnore PriceRec.key []
              ((eodB.filter (fun e => ! hasKey PriceRec.key newB e.key)).map
                (tagSource "eod_cash")))
            (newB.map (tagSource "new_bhav")) := rfl
    rw [hdb]
    obtain ⟨ext0, hext0, hmem0⟩ := insertOrIgnore_ext PriceRec.key
      ((eodB.filter (fun e => ! hasKey PriceRec.key newB e.key)).map (tagSource "eod_cash"))
      ([] : List PriceRec)
    rw [hext0, List.nil_append]
    have hdisj : ∀ x ∈ newB.map (tagSource "new_bhav"),
        hasKey PriceRec.key ext0 (PriceRec.key x) = false := by
      intro x hx
      obtain ⟨n, hn, rfl⟩ := List.mem_map.mp hx
      rw [hasKey_eq_false_iff]
      intro y hy
      intro hxy
      exact eod_filtered_keys (hmem0 y hy) n hn hxy.symm
    rw [insertOrIgnore_eq_append PriceRec.key _ ext0 hknew hdisj]
    have hnone : findRow PriceRec.key ext0 r.key = none := by
      rw [findRow_eq_none_iff]
      intro x hx hxk
      exact eod_filtered_keys (hmem0 x hx) r hr hxk.symm
    rw [findRow_append_none hnone]
    exact findRow_tagged_self hu hr _

theorem merge_precedence_witness :
    keyUnique PriceRec.key [sampleModern]
  ∧ sampleModern ∈ [sampleModern]
  ∧ hasKey PriceRec.key [sampleLegacy] sampleModern.key = true
  ∧ findRow PriceRec.key (create_finalDB true [] [sampleModern] [sampleLegacy])
      sampleModern.key = some (tagSource "new_bhav" sampleModern) := by
  refine ⟨List.nodup_singleton _, List.mem_singleton_self _, by decide, ?_⟩
  exact (merge_precedence [sampleModern] [sampleLegacy] sampleModern
    (List.nodup_singleton _) (List.mem_singleton_self _) (by decide)).1

theorem hasKey_eq_true_iff {α : Type} {key : α → Key} {t : List α} {k : Key} :
    hasKey key t k = true ↔ ∃ x ∈ t, key x = k := by
  simp [hasKey]

/-- C5 counterexample: in the spec's two-batch overlap scenario (modern row
close 101 with precedence, legacy row same key close 100) the merge output
is the single tagged modern row; it is identical to the output of the
identical-duplicate scenario, although the discarded closes differ — so no
data-quality signal distinguishing the conflict is recorded anywhere. -/
theorem merge_signal_counterexample :
    create_finalDB true [] [sampleModern] [sampleLegacy]
      = [tagSource "new_bhav" sampleModern]
  ∧ create_finalDB true [] [sampleModern] [sampleLegacy]
      = create_finalDB true [] [sampleModern] [sampleModern]
  ∧ sampleLegacy.close_price ≠ sampleModern.close_price := by
  refine ⟨by decide, by decide, by decide⟩

/-- C5 (amended): the merge records no data-quality signal; an `eod_cash`
row whose key collides with `new_bhav` is silently dropped: it never appears
in the merged table, and the merged table does not change at all when every
colliding `eod_cash` row is removed from the input. -/
theorem merge_silent_drop (newB eodB : List PriceRec) (e : PriceRec)
    (_he : e ∈ eodB) (hk : hasKey PriceRec.key newB e.key = true) :
    tagSource "eod_cash" e ∉ create_finalDB true [] newB eodB
  ∧ create_finalDB true [] newB eodB
      = create_finalDB true [] newB
          (eodB.filter (fun x => ! hasKey PriceRec.key newB x.key)) := by
  constructor
  · have hdb : create_finalDB true [] newB eodB
        = insertOrIgnore PriceRec.key
            (insertOrIgnore PriceRec.key [] (newB.map (tagSource "new_bhav")))
            ((eodB.filter (fun x => ! hasKey PriceRec.key newB x.key)).map
              (tagSource "eod_cash")) := rfl
    rw [hdb]
    obtain ⟨ext1, hext1, hmem1⟩ := insertOrIgnore_ext PriceRec.key
      (newB.map (tagSource "new_bhav")) ([] : List PriceRec)
    obtain ⟨ext2, hext2, hmem2⟩ := insertOrIgnore_ext PriceRec.key
      ((eodB.filter (fun x => ! hasKey PriceRec.key newB x.key)).map (tagSource "eod_cash"))
      (insertOrIgnore PriceRec.key [] (newB.map (tagSource "new_bhav")))
    rw [hext2, hext1, List.nil_append]
    intro hmem
    rcases List.mem_append.mp hmem with hin1 | hin2
    · obtain ⟨n, _, heq⟩ := List.mem_map.mp (hmem1 _ hin1)
      have := congrArg PriceRec.data_source heq
      simp [tagSource] at this
    · have hin2' := hmem2 _ hin2
      obtain ⟨x, hxf, heq⟩ := List.mem_map.mp hin2'
      have hxk : PriceRec.key x = PriceRec.key e := by
        have := congrArg PriceRec.key heq
        simpa [key_tagSource] using this
      have hxfalse : hasKey PriceRec.key newB x.key = false := by
        simpa using (List.mem_filter.mp hxf).2
      obtain ⟨n, hn, hnk⟩ := hasKey_eq_true_iff.mp hk
      exact hasKey_eq_false_iff.mp hxfalse n hn (by rw [hnk, ← hxk])
  · have hdb1 : create_finalDB true [] newB eodB
        = insertOrIgnore PriceRec.key
            (insertOrIgnore PriceRec.key [] (newB.map (tagSource "new_bhav")))
            ((eodB.filter (fun x => ! hasKey PriceRec.key newB x.key)).map
              (tagSource "eod_cash")) := rfl
    have hdb2 : create_finalDB true [] newB
          (eodB.filter (fun x => ! hasKey PriceRec.key newB x.key))
        = insertOrIgnore PriceRec.key
            (insertOrIgnore PriceRec.key [] (newB.map (tagSource "new_bhav")))
            (((eodB.filter (fun x => ! hasKey PriceRec.key newB x.key)).filter
                (fun x => ! hasKey PriceRec.key newB x.key)).map
              (tagSource "eod_cash")) := rfl
    rw [hdb1, hdb2, List.filter_filter]
    have hff : (fun (x : PriceRec) =>
          (! hasKey PriceRec.key newB x.key && ! hasKey PriceRec.key newB x.key))
        = fun x => ! hasKey PriceRec.key newB x.key := by
      funext x
      exact Bool.and_self _
    rw [hff]

theorem merge_silent_drop_witness :
    sampleLegacy ∈ [sampleLegacy]
  ∧ hasKey PriceRec.key [sampleModern] sampleLegacy.key = true
  ∧ tagSource "eod_cash" sampleLegacy ∉ create_finalDB true [] [sampleModern] [sampleLegacy] :=
  ⟨List.mem_singleton_self _, by decide,
    (merge_silent_drop [sampleModern] [sampleLegacy] sampleLegacy
      (List.mem_singleton_self _) (by decide)).1⟩

/-- C9: a pipeline run is a pure function of the canonical series and the
action set, and the persisted `bhav_adjusted_prices` table keeps the key
invariant under the run's `INSERT OR IGNORE`; re-running the identical
inputs over the already-persisted table changes nothing — in particular no
duplicate (SYMBOL, SERIES, DATE1) key is ever created. -/
theorem pipeline_idempotent (tbl : List AdjRec) (sym ser : String)
    (prices : List (ℤ × ℚ)) (actions : List CorporateAction)
    (h : keyUnique AdjRec.key tbl) :
    keyUnique AdjRec.key (runPipeline tbl sym ser prices actions)
  ∧ runPipeline (runPipeline tbl sym ser prices actions) sym ser prices actions
      = runPipeline tbl sym ser prices actions := by
  constructor
  · exact insertOrIgnore_keyUnique _ _ _ h
  · unfold runPipeline
    apply insertOrIgnore_eq_self
    intro r hr
    exact hasKey_insertOrIgnore_self AdjRec.key _ tbl r hr

theorem pipeline_idempotent_witness :
    keyUnique AdjRec.key ([] : List AdjRec)
  ∧ runPipeline (runPipeline [] "ABC" "EQ" [(1, 100)] []) "ABC" "EQ" [(1, 100)] []
      = runPipeline [] "ABC" "EQ" [(1, 100)] [] :=
  ⟨List.nodup_nil,
    (pipeline_idempotent [] "ABC" "EQ" [(1, 100)] [] List.nodup_nil).2⟩

/-! ### Sample actions and series for witnesses and counterexamples -/

/-- A 1:2 split (split_ratio_from = 1, split_ratio_to = 2) with ex-date 2. -/
def sampleSplit : CorporateAction :=
  ⟨"XYZ", 2, "split", 0, 0, 0, 1, 2⟩

/-- A dividend of 5 with ex-date 3. -/
def sampleDividend : CorporateAction :=
  ⟨"ABC", 3, "dividend", 5, 0, 0, 1, 1⟩

/-- A 1:1 bonus with ex-date 2. -/
def sampleBonus : CorporateAction :=
  ⟨"W", 2, "bonus", 0, 1, 1, 1, 1⟩

/-- A two-day series: closes 100 and 102 on days 1 and 2, factors 1. -/
def sampleRows : List Row :=
  [⟨1, 100, 1⟩, ⟨2, 102, 1⟩]

/-- C1 counterexample: a 1:2 split whose reference-day close is 0 yields
multiplier 2, not 1.0, and does change the factor of the reference day —
the final clause of the claim fails for split (and bonus) actions, whose
multipliers do not depend on the reference close. -/
theorem degenerate_refclose_counterexample :
    multiplier sampleSplit 0 = 2
  ∧ (2 : ℚ) ≠ 1
  ∧ adjustSeries [(1, 0)] [sampleSplit] = [⟨1, 0, 2⟩] := by
  refine ⟨?_, by norm_num, ?_⟩
  · norm_num +decide [multiplier, sampleSplit]
  · norm_num +decide [adjustSeries, applyActions, applyAction, refDay, closeAt,
      multiplier, initRows, sampleSplit, List.filter, List.find?, List.max?]

/-- C1 (amended): the multiplier is the stated total piecewise function of
the action and the reference close; a reference close of 0 or negative is
never divided into — a dividend then yields multiplier 1.0, while split and
bonus multipliers are independent of the reference close altogether. -/
theorem multiplier_piecewise_total (a : CorporateAction) (rc : ℚ) :
    (a.action_type = "dividend" →
      multiplier a rc
        = if rc > 0 ∧ a.dividend_amount > 0 then (rc - a.dividend_amount) / rc else 1)
  ∧ (a.action_type = "split" →
      multiplier a rc
        = if a.split_ratio_from > 0 then a.split_ratio_to / a.split_ratio_from else 1)
  ∧ (a.action_type = "bonus" →
      multiplier a rc
        = if a.bonus_ratio_from + a.bonus_ratio_to > 0 then
            a.bonus_ratio_to / (a.bonus_ratio_from + a.bonus_ratio_to)
          else 1)
  ∧ (a.action_type ≠ "dividend" → a.action_type ≠ "split" → a.action_type ≠ "bonus" →
      multiplier a rc = 1)
  ∧ (a.action_type = "dividend" → rc ≤ 0 → multiplier a rc = 1)
  ∧ (a.action_type ≠ "dividend" → ∀ rc₂ : ℚ, multiplier a rc = multiplier a rc₂) := by
  unfold multiplier
  refine ⟨?_, ?_, ?_, ?_, ?_, ?_⟩
  · intro h1
    simp +decide [h1]
  · intro h1
    simp +decide [h1]
  · intro h1
    simp +decide [h1]
  · intro h1 h2 h3
    simp [h1, h2, h3]
  · intro h1 h2
    have hn : ¬ (rc > 0) := not_lt.mpr h2
    simp [h1, hn]
  · intro h1 rc₂
    simp [h1]

theorem multiplier_piecewise_total_witness :
    multiplier sampleDividend 0 = 1
  ∧ multiplier sampleSplit 0 = multiplier sampleSplit 100 :=
  ⟨(multiplier_piecewise_total sampleDividend 0).2.2.2.2.1 rfl le_rfl,
    (multiplier_piecewise_total sampleSplit 0).2.2.2.2.2 (by decide) 100⟩

/-- C2: when a reference day exists, an action with
`multiplier > 0 and multiplier != 1.0` multiplies CUMULATIVE_FACTOR by the
multiplier on exactly the rows dated on or before the reference day and
leaves every later row unchanged; an action whose multiplier is 0,
negative, or exactly 1.0 changes no row at all. -/
theorem applyAction_frame (rows : List Row) (a : CorporateAction) (pd : ℤ)
    (hpd : refDay rows a.ex_date = some pd) :
    (multiplier a (closeAt rows pd) > 0 ∧ multiplier a (closeAt rows pd) ≠ 1 →
      applyAction rows a = rows.map (fun r =>
        if r.date ≤ pd then { r with factor := r.factor * multiplier a (closeAt rows pd) }
        else r))
  ∧ (¬ (multiplier a (closeAt rows pd) > 0 ∧ multiplier a (closeAt rows pd) ≠ 1) →
      applyAction rows a = rows) := by
  unfold applyAction
  rw [hpd]
  dsimp only
  constructor
  · intro hm
    rw [if_pos hm]
  · intro hm
    rw [if_neg hm]

theorem applyAction_frame_witness :
    refDay sampleRows sampleBonus.ex_date = some 1
  ∧ applyAction sampleRows sampleBonus = sampleRows.map (fun r =>
      if r.date ≤ 1 then
        { r with factor := r.factor * multiplier sampleBonus (closeAt sampleRows 1) }
      else r) := by
  have hpd : refDay sampleRows sampleBonus.ex_date = some 1 := by decide
  refine ⟨hpd, (applyAction_frame sampleRows sampleBonus 1 hpd).1 ?_⟩
  norm_num +decide [multiplier, sampleBonus, closeAt, sampleRows, List.find?]

/-- C7: with an empty corporate-action list every day of the output keeps
CUMULATIVE_FACTOR 1.0 and its adjusted close equals its unadjusted close. -/
theorem no_action_identity (prices : List (ℤ × ℚ)) :
    (adjustSeries prices []).map Row.factor = prices.map (fun _ => (1 : ℚ))
  ∧ (adjustSeries prices []).map adjustedClose = prices.map Prod.snd := by
  have h : adjustSeries prices [] = initRows prices := rfl
  rw [h]
  unfold initRows
  constructor
  · rw [List.map_map]
    rfl
  · rw [List.map_map]
    apply List.map_congr_left
    intro p _
    simp [adjustedClose, Function.comp, mul_one]

/-- C8: an action whose ex-date is on or before every trading day of the
series has no reference day; it is skipped without error, changes no row,
and the loop continues with the remaining actions. -/
theorem early_action_skipped (rows : List Row) (a : CorporateAction)
    (rest : List CorporateAction) (h : ∀ r ∈ rows, a.ex_date ≤ r.date) :
    refDay rows a.ex_date = none
  ∧ applyAction rows a = rows
  ∧ applyActions rows (a :: rest) = applyActions rows rest := by
  have href : refDay rows a.ex_date = none := by
    unfold refDay
    have hnil : rows.filter (fun r => decide (r.date < a.ex_date)) = [] := by
      rw [List.filter_eq_nil_iff]
      intro r hr
      simp [not_lt.mpr (h r hr)]
    rw [hnil]
    rfl
  have happ : applyAction rows a = rows := by
    unfold applyAction
    rw [href]
  refine ⟨href, happ, ?_⟩
  have hfold : applyActions rows (a :: rest) = applyActions (applyAction rows a) rest := rfl
  rw [hfold, happ]

theorem early_action_skipped_witness :
    refDay [⟨2, 50, 1⟩, ⟨3, 60, 1⟩] sampleSplit.ex_date = none
  ∧ applyAction [⟨2, 50, 1⟩, ⟨3, 60, 1⟩] sampleSplit = [⟨2, 50, 1⟩, ⟨3, 60, 1⟩] := by
  have h := early_action_skipped [⟨2, 50, 1⟩, ⟨3, 60, 1⟩] sampleSplit [] (by decide)
  exact ⟨h.1, h.2.1⟩

/-- C10: in exact rational arithmetic the adjusted series is invariant under
any permutation of the action list: each action's reference day and
multiplier depend only on the immutable dates and closes, and the factors
combine by commutative multiplication. -/
theorem adjustment_order_invariant (prices : List (ℤ × ℚ))
    (as bs : List CorporateAction) (h : as.Perm bs) :
    adjustSeries prices as = adjustSeries prices bs :=
  adjustSeries_perm_helper prices h

theorem adjustment_order_invariant_witness :
    ([sampleDividend, sampleSplit].Perm [sampleSplit, sampleDividend])
  ∧ adjustSeries [(1, 100)] [sampleDividend, sampleSplit]
      = adjustSeries [(1, 100)] [sampleSplit, sampleDividend] :=
  ⟨List.Perm.swap sampleSplit sampleDividend [],
    adjustment_order_invariant [(1, 100)] _ _ (List.Perm.swap sampleSplit sampleDividend [])⟩

/-- C6 counterexample: the `AdjDataProcessor` CSV path hands the loop
`df.copy()` unchanged, so with the dividend (ex-date 3) listed before the
split (ex-date 2) the loop processes ex-dates in the order 3, 2 — not
ascending: the engine does not sort the action sequence. -/
theorem engine_no_sort_counterexample :
    caSequenceAdj [sampleDividend, sampleSplit] = [sampleDividend, sampleSplit]
  ∧ ¬ (caSequenceAdj [sampleDividend, sampleSplit]).Sorted exDateLE := by
  refine ⟨rfl, fun hs => ?_⟩
  have hrel := List.rel_of_sorted_cons hs sampleSplit (List.mem_singleton_self _)
  exact absurd hrel (by decide)

/-- C6 (amended): the engine loop never sorts; the `DataPreProcessor` fetch
query hands it an ex-date-sorted rearrangement of the symbol's actions,
while the `AdjDataProcessor` CSV path hands it the parsed rows in input
order — yet the adjusted output is identical under either sequence. -/
theorem engine_action_order :
    (∀ tbl : List CorporateAction,
        (caSequencePre tbl).Sorted exDateLE ∧ (caSequencePre tbl).Perm tbl)
  ∧ (∀ df : List CorporateAction, caSequenceAdj df = df)
  ∧ (∀ (prices : List (ℤ × ℚ)) (df : List CorporateAction),
        adjustSeries prices (caSequenceAdj df) = adjustSeries prices (caSequencePre df)) := by
  refine ⟨fun tbl => ⟨List.sorted_insertionSort exDateLE tbl,
    List.perm_insertionSort exDateLE tbl⟩, fun _ => rfl, fun prices df => ?_⟩
  exact adjustSeries_perm_helper prices (List.perm_insertionSort exDateLE df).symm

end NSEPipeline
